import Mathlib

/-!
Verification development for `LhloFuseLinalgPass`
(`tensorflow/compiler/mlir/hlo/lib/Dialect/mhlo/transforms/lhlo_fuse_linalg.cc`).

The pass tiles "root" linalg kernels (those writing to escaping buffers) and
then greedily fuses producers into tiled consumers, in reverse encounter order,
with deferred batch erasure of fused-away producers.

Shallow embedding choices:
* A buffer (`mlir::Value`) is a `Nat` identity.
* An operation of the function body is `Op`: a view-like op (result, source),
  a `linalg.generic` kernel, a tiled loop nest produced by tiling, or anything
  else.  A kernel carries its identity (`Operation*`), its input and output
  buffers and its iteration-space rank (`getNumLoops`).
* The external collaborators — the tiling primitive `linalg::tileLinalgOp` and
  the producer-fusion primitive `linalg::fuseProducerOfBuffer` — are parameters
  (`tilePrim`, `fuse`): the pass only orchestrates them.
* The alias-resolution worklist of the source pops from the back of a
  `SmallVector`; the Lean list head plays the role of the vector back.  The
  recursion is driven by an explicit fuel that is, at the call site, at least
  the worklist measure, so the function is structural and executable.
-/

namespace LhloFuseLinalg

/-- A linalg kernel operation: stable identity, input buffers, output buffers,
and iteration-space rank (`getNumLoops`). -/
structure Kernel where
  id : Nat
  inputs : List Nat
  outputs : List Nat
  numLoops : Nat
deriving DecidableEq

/-- Loop construct chosen for tiling (`linalg::LinalgTilingLoopType`). -/
inductive LoopKind where
  | parallelLoops
  | sequentialLoops
deriving DecidableEq

/-- An operation in the function body. `view` models an op implementing
`ViewLikeOpInterface` (result buffer, source buffer); `generic` a
`linalg.generic`; `tiledNest` the tiled loop nest that replaces a generic op
after successful tiling (it wraps the new tiled kernel instance). -/
inductive Op where
  | view (result source : Nat)
  | generic (k : Kernel)
  | tiledNest (k : Kernel) (sizes : List Nat)
  | other
deriving DecidableEq

/-- A block terminator: either `std.return` with operands, or any other
terminator. -/
inductive Terminator where
  | ret (operands : List Nat)
  | other
deriving DecidableEq

/-- A basic block: its operations and its terminator. -/
structure BlockT where
  ops : List Op
  term : Terminator
deriving DecidableEq

/-- A function: argument buffers and a list of blocks. -/
structure Func where
  args : List Nat
  blocks : List BlockT
deriving DecidableEq

/-- All operations of a function, in encounter order. -/
def allOps (f : Func) : List Op :=
  (f.blocks.map BlockT.ops).flatten

/-- The operand list of the terminator when it is a
`std.return` (`dyn_cast<mlir::ReturnOp>` succeeding), `[]` otherwise. -/
def returnOperands (b : BlockT) : List Nat :=
  match b.term with
  | .ret os => os
  | .other => []

/-- The escaping-buffer seed list, in the order the source inserts into
`result_buffers`: every function argument, then the operands of every block's
return terminator (non-return terminators are skipped). -/
def seedList (f : Func) : List Nat :=
  f.args ++ (f.blocks.map returnOperands).flatten

/-- The escaping-buffer seed set (`result_buffers` before alias closure). -/
def seedBuffers (f : Func) : Finset Nat :=
  (seedList f).foldr insert ∅

/-- Holds `some a` when buffer `b` has a defining operation that is
view-like with source buffer `a` (`result.getDefiningOp()` +
`ViewLikeOpInterface::getViewSource`). -/
def viewSource (ops : List Op) (b : Nat) : Option Nat :=
  ops.findSome? fun op =>
    match op with
    | .view r s => if r = b then some s else none
    | _ => none

/-- All source buffers of view-like operations: the only buffers the alias
closure can ever add. -/
def viewSources (ops : List Op) : Finset Nat :=
  ops.foldr
    (fun op acc =>
      match op with
      | .view _ s => insert s acc
      | _ => acc)
    ∅

lemma viewSource_mem_viewSources {ops : List Op} {b a : Nat}
    (h : viewSource ops b = some a) : a ∈ viewSources ops := by
  induction ops with
  | nil => simp [viewSource] at h
  | cons op rest ih =>
    rw [viewSource, List.findSome?_cons] at h
    cases op with
    | view r s =>
      by_cases hr : r = b
      · simp [hr] at h
        simp [viewSources, h]
      · simp [hr] at h
        have := ih h
        simp [viewSources]
        right
        simpa [viewSources] using this
    | generic k =>
      simp at h
      have := ih h
      simpa [viewSources] using this
    | tiledNest k sizes =>
      simp at h
      have := ih h
      simpa [viewSources] using this
    | other =>
      simp at h
      have := ih h
      simpa [viewSources] using this

/-- The alias-resolution worklist loop: pop a buffer; if its defining op is
view-like, insert the source buffer into the set and push it onto the worklist
when it was not already a member.  `fuel` bounds the number of iterations; the
caller supplies a fuel at least `W.length + 2 * ((viewSources ops) \ S).card`,
which the loop never exhausts. -/
def closureAux (ops : List Op) : Nat → Finset Nat → List Nat → Finset Nat
  | 0, S, _ => S
  | _ + 1, S, [] => S
  | fuel + 1, S, r :: W =>
    match viewSource ops r with
    | none => closureAux ops fuel S W
    | some a =>
      if a ∈ S then closureAux ops fuel S W
      else closureAux ops fuel (insert a S) (a :: W)

/-- The Alias Resolver: close the seed set under the view-source relation.
The seed is given as the list of its elements (the source builds the worklist
by iterating the `SmallDenseSet`; the iteration order is unspecified and the
result does not depend on it). -/
def resolveAliases (ops : List Op) (seedL : List Nat) : Finset Nat :=
  closureAux ops
    (seedL.length + 2 * ((viewSources ops) \ (seedL.foldr insert ∅)).card)
    (seedL.foldr insert ∅) seedL

lemma mem_foldr_insert {L : List Nat} {b : Nat} {s : Finset Nat} (h : b ∈ L) :
    b ∈ L.foldr insert s := by
  induction L with
  | nil => simp at h
  | cons x rest ih =>
    rcases List.mem_cons.mp h with h | h
    · simp [h]
    · simp [ih h]

lemma sdiff_insert_card_succ {s t : Finset Nat} {a : Nat}
    (ha : a ∈ s) (hb : a ∉ t) :
    (s \ insert a t).card + 1 = (s \ t).card := by
  have h1 : s \ insert a t = (s \ t).erase a := by
    ext y
    simp only [Finset.mem_sdiff, Finset.mem_insert, Finset.mem_erase]
    tauto
  have hmem : a ∈ s \ t := by
    simp only [Finset.mem_sdiff]
    exact ⟨ha, hb⟩
  rw [h1, Finset.card_erase_of_mem hmem]
  have : 0 < (s \ t).card := Finset.card_pos.mpr ⟨a, hmem⟩
  omega

lemma subset_closureAux (ops : List Op) :
    ∀ (fuel : Nat) (S : Finset Nat) (W : List Nat), S ⊆ closureAux ops fuel S W := by
  intro fuel
  induction fuel with
  | zero => intro S W; simp [closureAux]
  | succ n ih =>
    intro S W
    cases W with
    | nil => simp [closureAux]
    | cons r W =>
      rw [closureAux]
      cases hv : viewSource ops r with
      | none => exact ih S W
      | some a =>
        by_cases ha : a ∈ S
        · simpa [ha] using ih S W
        · simp only [ha, if_false]
          exact (Finset.subset_insert a S).trans (ih (insert a S) (a :: W))

lemma closureAux_closed (ops : List Op) :
    ∀ (fuel : Nat) (S : Finset Nat) (W : List Nat),
      W.length + 2 * ((viewSources ops) \ S).card ≤ fuel →
      (∀ b ∈ S, b ∈ W ∨ ∀ a, viewSource ops b = some a → a ∈ S) →
      ∀ b ∈ closureAux ops fuel S W, ∀ a, viewSource ops b = some a →
        a ∈ closureAux ops fuel S W := by
  intro fuel
  induction fuel with
  | zero =>
    intro S W hfuel hinv b hb a hva
    have hW : W = [] := by
      cases W with
      | nil => rfl
      | cons x xs => simp at hfuel
    subst hW
    simp only [closureAux] at hb ⊢
    rcases hinv b hb with h | h
    · simp at h
    · exact h a hva
  | succ n ih =>
    intro S W hfuel hinv
    cases W with
    | nil =>
      intro b hb a hva
      simp only [closureAux] at hb ⊢
      rcases hinv b hb with h | h
      · simp at h
      · exact h a hva
    | cons r W =>
      rw [closureAux]
      cases hv : viewSource ops r with
      | none =>
        refine ih S W ?_ ?_
        · simp only [List.length_cons] at hfuel; omega
        · intro b hb
          rcases hinv b hb with h | h
          · rcases List.mem_cons.mp h with h | h
            · subst h
              right
              intro a hva
              rw [hv] at hva
              exact absurd hva (by simp)
            · exact Or.inl h
          · exact Or.inr h
      | some a =>
        by_cases ha : a ∈ S
        · simp only [ha, if_true]
          refine ih S W ?_ ?_
          · simp only [List.length_cons] at hfuel; omega
          · intro b hb
            rcases hinv b hb with h | h
            · rcases List.mem_cons.mp h with h | h
              · subst h
                right
                intro a' hva
                rw [hv] at hva
                injection hva with he
                subst he
                exact ha
              · exact Or.inl h
            · exact Or.inr h
        · simp only [ha, if_false]
          have hasrc : a ∈ viewSources ops := viewSource_mem_viewSources hv
          refine ih (insert a S) (a :: W) ?_ ?_
          · have hcard := sdiff_insert_card_succ hasrc ha
            simp only [List.length_cons] at hfuel ⊢
            omega
          · intro b hb
            rcases Finset.mem_insert.mp hb with h | h
            · rw [h]
              exact Or.inl (List.mem_cons_self a W)
            · rcases hinv b h with h2 | h2
              · rcases List.mem_cons.mp h2 with h2 | h2
                · subst h2
                  right
                  intro a' hva
                  rw [hv] at hva
                  injection hva with he
                  subst he
                  exact Finset.mem_insert_self a S
                · exact Or.inl (List.mem_cons_of_mem a h2)
              · right
                intro a' hva
                exact Finset.mem_insert_of_mem (h2 a' hva)

lemma closureAux_of_closed (ops : List Op) :
    ∀ (fuel : Nat) (S : Finset Nat) (W : List Nat),
      (∀ b ∈ S, ∀ a, viewSource ops b = some a → a ∈ S) →
      (∀ b ∈ W, b ∈ S) →
      closureAux ops fuel S W = S := by
  intro fuel
  induction fuel with
  | zero => intro S W _ _; simp [closureAux]
  | succ n ih =>
    intro S W hcl hW
    cases W with
    | nil => simp [closureAux]
    | cons r W =>
      rw [closureAux]
      cases hv : viewSource ops r with
      | none => exact ih S W hcl (fun b hb => hW b (List.mem_cons_of_mem r hb))
      | some a =>
        have hr : r ∈ S := hW r (List.mem_cons_self r W)
        have ha : a ∈ S := hcl r hr a hv
        simp only [ha, if_true]
        exact ih S W hcl (fun b hb => hW b (List.mem_cons_of_mem r hb))

lemma mem_of_mem_foldr_insert {L : List Nat} {b : Nat}
    (h : b ∈ L.foldr insert (∅ : Finset Nat)) : b ∈ L := by
  induction L with
  | nil => simp at h
  | cons x rest ih =>
    simp only [List.foldr_cons] at h
    rcases Finset.mem_insert.mp h with h | h
    · exact h ▸ List.mem_cons_self x rest
    · exact List.mem_cons_of_mem x (ih h)

lemma resolveAliases_closed (ops : List Op) (seedL : List Nat) :
    ∀ b ∈ resolveAliases ops seedL, ∀ a, viewSource ops b = some a →
      a ∈ resolveAliases ops seedL := by
  unfold resolveAliases
  exact closureAux_closed ops _ _ seedL (le_refl _)
    (fun b hb => Or.inl (mem_of_mem_foldr_insert hb))

/-- C3. The alias-closure algorithm's output is closed under the view-source
relation, and re-running the Alias Resolver on its own output (handing the
resulting set back as the seed, in any enumeration order) yields the same set
(idempotence), for every seed and every list of operations. -/
theorem claim_C3 (ops : List Op) (seedL L2 : List Nat)
    (h2 : L2.foldr insert ∅ = resolveAliases ops seedL) :
    (∀ b ∈ resolveAliases ops seedL, ∀ a, viewSource ops b = some a →
      a ∈ resolveAliases ops seedL) ∧
    resolveAliases ops L2 = resolveAliases ops seedL := by
  refine ⟨resolveAliases_closed ops seedL, ?_⟩
  have hcl := resolveAliases_closed ops seedL
  show closureAux ops
      (L2.length + 2 * ((viewSources ops) \ (L2.foldr insert ∅)).card)
      (L2.foldr insert ∅) L2 = resolveAliases ops seedL
  rw [h2]
  exact closureAux_of_closed ops _ _ _ hcl
    (fun b hb => h2 ▸ mem_foldr_insert hb)

/-! ### Tiling phase -/

/-- Tile sizes used for a kernel: the configured `tile-sizes` list when it is
non-empty, otherwise a vector of ones of length `getNumLoops()` computed per
kernel. -/
def tileSizesFor (cfg : List Nat) (k : Kernel) : List Nat :=
  if cfg.isEmpty then List.replicate k.numLoops 1 else cfg

/-- Model of `LhloFuseLinalgPass::tileGenericOp`: invoke the external tiling primitive
(`linalg::tileLinalgOp`) with the tile sizes and the loop type selected by the
`use-parallel-loops` option; report whether tiling succeeded. -/
def tileGenericOp (tilePrim : Kernel → List Nat → LoopKind → Bool)
    (useParallelLoops : Bool) (k : Kernel) (sizes : List Nat) : Bool :=
  tilePrim k sizes
    (if useParallelLoops then LoopKind.parallelLoops else LoopKind.sequentialLoops)

/-- The loop over a kernel's output buffers during root tiling: for each output
buffer that is in the escaping set, attempt tiling; on the first success, stop
(the source erases the original op and returns from the walk callback).
Returns the number of attempts made and whether some attempt succeeded.
`att` is the (deterministic) outcome of one tiling attempt for this kernel. -/
def tileOutputsLoop (att : Bool) (esc : Finset Nat) : List Nat → Nat × Bool
  | [] => (0, false)
  | o :: rest =>
    if o ∈ esc then
      if att then (1, true)
      else ((tileOutputsLoop att esc rest).1 + 1, (tileOutputsLoop att esc rest).2)
    else tileOutputsLoop att esc rest

/-- Process one operation of the root-tiling walk: a `linalg.generic` whose
tiling succeeded is replaced by its tiled loop nest (the original op erased);
everything else is left unchanged.  Also returns the trace of tiling-primitive
invocations `(kernel, sizes)` made for this op. -/
def tileOp (tileOk : Kernel → List Nat → Bool) (cfg : List Nat)
    (esc : Finset Nat) (op : Op) : Op × List (Kernel × List Nat) :=
  match op with
  | .generic k =>
    let sizes := tileSizesFor cfg k
    let r := tileOutputsLoop (tileOk k sizes) esc k.outputs
    (if r.2 then .tiledNest k sizes else .generic k,
     List.replicate r.1 (k, sizes))
  | op => (op, [])

/-- The root-tiling walk over the whole block, with the concatenated trace of
tiling-primitive invocations. -/
def tilingPhase (tileOk : Kernel → List Nat → Bool) (cfg : List Nat)
    (esc : Finset Nat) (ops : List Op) : List Op × List (Kernel × List Nat) :=
  (ops.map fun op => (tileOp tileOk cfg esc op).1,
   (ops.map fun op => (tileOp tileOk cfg esc op).2).flatten)

lemma tileOutputsLoop_pos_iff (att : Bool) (esc : Finset Nat) :
    ∀ outs : List Nat,
      0 < (tileOutputsLoop att esc outs).1 ↔ ∃ o ∈ outs, o ∈ esc := by
  intro outs
  induction outs with
  | nil => simp [tileOutputsLoop]
  | cons o rest ih =>
    by_cases ho : o ∈ esc
    · refine iff_of_true ?_ ⟨o, List.mem_cons_self o rest, ho⟩
      rw [tileOutputsLoop, if_pos ho]
      cases att with
      | false => simp
      | true => simp
    · rw [tileOutputsLoop, if_neg ho, ih]
      constructor
      · rintro ⟨x, hx, hxe⟩
        exact ⟨x, List.mem_cons_of_mem o hx, hxe⟩
      · rintro ⟨x, hx, hxe⟩
        rcases List.mem_cons.mp hx with h | h
        · exact absurd (h ▸ hxe) ho
        · exact ⟨x, h, hxe⟩

lemma tileOutputsLoop_snd_iff (att : Bool) (esc : Finset Nat) :
    ∀ outs : List Nat,
      (tileOutputsLoop att esc outs).2 = true ↔
        (att = true ∧ ∃ o ∈ outs, o ∈ esc) := by
  intro outs
  induction outs with
  | nil => simp [tileOutputsLoop]
  | cons o rest ih =>
    by_cases ho : o ∈ esc
    · rw [tileOutputsLoop, if_pos ho]
      cases att with
      | false =>
        simp only [Bool.false_eq_true, if_false]
        rw [ih]
        simp
      | true =>
        exact iff_of_true (by rfl) ⟨rfl, o, List.mem_cons_self o rest, ho⟩
    · rw [tileOutputsLoop, if_neg ho, ih]
      constructor
      · rintro ⟨ha, x, hx, hxe⟩
        exact ⟨ha, x, List.mem_cons_of_mem o hx, hxe⟩
      · rintro ⟨ha, x, hx, hxe⟩
        rcases List.mem_cons.mp hx with h | h
        · exact absurd (h ▸ hxe) ho
        · exact ⟨ha, x, h, hxe⟩

/-- C2. In the root-tiling walk, a kernel gets a tiling attempt if and only if
at least one of its output buffers is in the escaping-buffer set, the kernel's
original form is erased (replaced by its tiled loop nest) if and only if it got
an attempt and the tiling primitive succeeded, and a kernel with no output
buffer in the set is left untouched with no tiling attempt at all. -/
theorem claim_C2 (tileOk : Kernel → List Nat → Bool) (cfg : List Nat)
    (esc : Finset Nat) (k : Kernel) :
    (0 < (tileOp tileOk cfg esc (Op.generic k)).2.length ↔
      ∃ o ∈ k.outputs, o ∈ esc) ∧
    ((tileOp tileOk cfg esc (Op.generic k)).1 =
        Op.tiledNest k (tileSizesFor cfg k) ↔
      ((∃ o ∈ k.outputs, o ∈ esc) ∧ tileOk k (tileSizesFor cfg k) = true)) ∧
    ((∀ o ∈ k.outputs, o ∉ esc) →
      (tileOp tileOk cfg esc (Op.generic k)).1 = Op.generic k ∧
      (tileOp tileOk cfg esc (Op.generic k)).2 = []) := by
  have hpos := tileOutputsLoop_pos_iff (tileOk k (tileSizesFor cfg k)) esc k.outputs
  have hsnd := tileOutputsLoop_snd_iff (tileOk k (tileSizesFor cfg k)) esc k.outputs
  refine ⟨?_, ?_, ?_⟩
  · simp only [tileOp, List.length_replicate]
    exact hpos
  · simp only [tileOp]
    by_cases hs : (tileOutputsLoop (tileOk k (tileSizesFor cfg k)) esc k.outputs).2 = true
    · rw [if_pos hs]
      have h2 := hsnd.mp hs
      exact iff_of_true rfl ⟨h2.2, h2.1⟩
    · rw [if_neg hs]
      constructor
      · intro h; exact absurd h (by simp)
      · rintro ⟨hex, hok⟩
        exact absurd (hsnd.mpr ⟨hok, hex⟩) hs
  · intro hnone
    have h1 : ¬ ∃ o ∈ k.outputs, o ∈ esc := by
      rintro ⟨o, ho, hoe⟩
      exact hnone o ho hoe
    have hz : (tileOutputsLoop (tileOk k (tileSizesFor cfg k)) esc k.outputs).1 = 0 := by
      by_contra hne
      exact h1 (hpos.mp (by omega))
    have hf : (tileOutputsLoop (tileOk k (tileSizesFor cfg k)) esc k.outputs).2 = false := by
      by_contra hne
      simp only [Bool.not_eq_false] at hne
      exact h1 (hsnd.mp hne).2
    simp [tileOp, hz, hf]

lemma tileOp_trace_sizes (tileOk : Kernel → List Nat → Bool) (cfg : List Nat)
    (esc : Finset Nat) (op : Op) (k : Kernel) (s : List Nat)
    (h : (k, s) ∈ (tileOp tileOk cfg esc op).2) : s = tileSizesFor cfg k := by
  cases op with
  | generic k0 =>
    simp only [tileOp] at h
    have heq := List.eq_of_mem_replicate h
    have h1 : k = k0 := congrArg Prod.fst heq
    have h2 : s = tileSizesFor cfg k0 := congrArg Prod.snd heq
    rw [h1]
    exact h2
  | view r s0 => simp [tileOp] at h
  | tiledNest k0 s0 => simp [tileOp] at h
  | other => simp [tileOp] at h

/-- C4. Every invocation of the tiling primitive during the root-tiling walk
passes the configured tile-sizes list when it is non-empty, and otherwise a
vector of all ones whose length is the kernel's iteration-space rank, computed
per kernel. -/
theorem claim_C4 (tileOk : Kernel → List Nat → Bool) (cfg : List Nat)
    (esc : Finset Nat) (ops : List Op) (k : Kernel) (s : List Nat)
    (h : (k, s) ∈ (tilingPhase tileOk cfg esc ops).2) :
    s = tileSizesFor cfg k ∧
    (cfg ≠ [] → s = cfg) ∧
    (cfg = [] → s = List.replicate k.numLoops 1) := by
  have hs : s = tileSizesFor cfg k := by
    simp only [tilingPhase, List.mem_flatten] at h
    rcases h with ⟨tr, htr, hmem⟩
    rcases List.mem_map.mp htr with ⟨op, _, rfl⟩
    exact tileOp_trace_sizes tileOk cfg esc op k s hmem
  refine ⟨hs, ?_, ?_⟩
  · intro hne
    rw [hs, tileSizesFor, if_neg (by simpa using hne)]
  · intro he
    rw [hs, tileSizesFor, if_pos (by simp [he])]

/-! ### Fusion phase

The fusion loop of the source keeps:
* `linalg_ops` — a `SmallVector<Operation*>` of the live linalg kernels,
  mutated in place when a fusion succeeds (`tracking` below);
* `erase_set` — a `SmallDenseSet<Operation*>` of producers marked for removal
  (`marked` below).

The function itself holds the operations; we track their identities in two
sets: `nodes`, the top-level kernel nodes present when the fusion phase starts,
and `nested`, the fused-producer kernels that `fuseProducerOfBuffer` creates
inside a consumer's tiled loop nest.  Fresh operation identities are allocated
from a counter `nextId` (every pre-existing id is below it). -/

/-- The state of `runOnFunction` during the producer-fusion phase. -/
structure FState where
  tracking : List Kernel
  nodes : Finset Nat
  nested : Finset Nat
  marked : Finset Nat
  nextId : Nat
deriving DecidableEq

/-- Replace the first list entry whose identity is `pid` (the
`std::find_if` + pointer-assignment step of the source); leave the list
unchanged when no entry matches. -/
def replaceFirst (l : List Kernel) (pid : Nat) (f : Kernel) : List Kernel :=
  match l with
  | [] => []
  | k :: rest => if k.id = pid then f :: rest else k :: replaceFirst rest pid f

/-- One recorded fusion attempt: the consumer's position and record, the input
index, the kernel list the dependence graph was freshly built from (the graph
is a pure function of this list plus a fresh alias table), and, on success, the
original producer and the fused producer. -/
structure Attempt where
  pos : Nat
  consumer : Kernel
  inputIdx : Nat
  graphList : List Kernel
  success : Option (Kernel × Kernel)
deriving DecidableEq

/-- One recorded visit of the reverse pass: the position visited and the
attempts made for the kernel found there. -/
structure Visit where
  pos : Nat
  attempts : List Attempt
deriving DecidableEq

/-- The fused producer: a tile-level clone of the original producer with a
fresh operation identity, created inside the consumer's loop nest. -/
def mkFused (p : Kernel) (nid : Nat) : Kernel :=
  { p with id := nid }

/-- One fusion attempt for consumer `c` at input index `i`: build the
dependence graph fresh from the current live-kernel list (with a fresh alias
table) and invoke the external `fuseProducerOfBuffer` primitive `fuse`.  On
success, mark the original producer for erasure and replace its record in the
live-kernel list by the fused producer. -/
def fuseAttempt (fuse : List Kernel → Kernel → Nat → Option Kernel)
    (c : Kernel) (pos i : Nat) (st : FState) : FState × Attempt :=
  match fuse st.tracking c i with
  | none =>
    (st, { pos := pos, consumer := c, inputIdx := i,
           graphList := st.tracking, success := none })
  | some p =>
    ({ tracking := replaceFirst st.tracking p.id (mkFused p st.nextId),
       nodes := st.nodes,
       nested := insert st.nextId st.nested,
       marked := insert p.id st.marked,
       nextId := st.nextId + 1 },
     { pos := pos, consumer := c, inputIdx := i,
       graphList := st.tracking, success := some (p, mkFused p st.nextId) })

/-- The inner loop over the consumer's input indices. -/
def runInputs (fuse : List Kernel → Kernel → Nat → Option Kernel)
    (c : Kernel) (pos : Nat) : List Nat → FState → FState × List Attempt
  | [], st => (st, [])
  | i :: rest, st =>
    let r1 := fuseAttempt fuse c pos i st
    let r2 := runInputs fuse c pos rest r1.1
    (r2.1, r1.2 :: r2.2)

/-- Visit one position of the reverse pass: read the kernel currently recorded
there and attempt fusion for each of its input indices (the bound
`getNumInputs()` is read once, at the start of the visit).  The subsequent
canonicalization rewrites are external and touch neither the live-kernel list
nor the erase set. -/
def visitPos (fuse : List Kernel → Kernel → Nat → Option Kernel)
    (pos : Nat) (st : FState) : FState × Visit :=
  match st.tracking[pos]? with
  | none => (st, { pos := pos, attempts := [] })
  | some c =>
    let r := runInputs fuse c pos (List.range c.inputs.length) st
    (r.1, { pos := pos, attempts := r.2 })

/-- Visit the given positions in order, accumulating the visit trace. -/
def runVisits (fuse : List Kernel → Kernel → Nat → Option Kernel) :
    List Nat → FState → FState × List Visit
  | [], st => (st, [])
  | pos :: rest, st =>
    let r1 := visitPos fuse pos st
    let r2 := runVisits fuse rest r1.1
    (r2.1, r1.2 :: r2.2)

/-- The reverse pass: visit the collected live-kernel list positions from the
last to the first (`llvm::reverse(linalg_ops)`). -/
def fusionLoop (fuse : List Kernel → Kernel → Nat → Option Kernel)
    (st : FState) : FState × List Visit :=
  runVisits fuse (List.range st.tracking.length).reverse st

/-- The terminal batch erasure: `for (auto* e : erase_set) e->erase();`. -/
def batchErase (st : FState) : FState :=
  { st with nodes := st.nodes \ st.marked, nested := st.nested \ st.marked }

/-- The whole producer-fusion phase: the reverse pass followed by the single
batch erasure of every kernel marked for removal. -/
def fusionPhase (fuse : List Kernel → Kernel → Nat → Option Kernel)
    (st : FState) : FState × List Visit :=
  let r := fusionLoop fuse st
  (batchErase r.1, r.2)

/-- Operation identities currently present (not erased) in the function:
top-level kernel nodes plus fused producers nested in consumers' loop nests. -/
def presentOps (st : FState) : Finset Nat :=
  st.nodes ∪ st.nested

/-- The number of live kernel nodes of the function: top-level kernel nodes
not marked for removal.  A fused producer is created inside its consumer's
tiled loop nest, so it is part of the consumer's node, not a node of its
own. -/
def liveCount (st : FState) : Nat :=
  (st.nodes \ st.marked).card

/-- Internal consistency of the fusion-phase state: every record of the
live-kernel list and every marked kernel refers to an operation that is still
present in the function. -/
def StInv (st : FState) : Prop :=
  (∀ k ∈ st.tracking, k.id ∈ presentOps st) ∧
  (∀ x ∈ st.marked, x ∈ presentOps st)

/-- Effect of one attempt on the live-kernel list: on success, the first
record of the original producer is replaced by the fused producer. -/
def applySucc (l : List Kernel) (a : Attempt) : List Kernel :=
  match a.success with
  | none => l
  | some pf => replaceFirst l pf.1.id pf.2

/-- Says that the attempt trace `tr`, started from live-kernel list
`l`, built every dependence graph from the list as mutated by all earlier
successful attempts. -/
def stepsOk : List Kernel → List Attempt → Prop
  | _, [] => True
  | l, a :: rest => a.graphList = l ∧ stepsOk (applySucc l a) rest

/-- The flattened attempt trace of a visit trace. -/
def attemptsOf (vs : List Visit) : List Attempt :=
  (vs.map Visit.attempts).flatten

lemma replaceFirst_length (pid : Nat) (f : Kernel) :
    ∀ l : List Kernel, (replaceFirst l pid f).length = l.length := by
  intro l
  induction l with
  | nil => rfl
  | cons k rest ih =>
    rw [replaceFirst]
    by_cases h : k.id = pid
    · simp [h]
    · simp [h, ih]

lemma mem_replaceFirst {pid : Nat} {f k : Kernel} :
    ∀ {l : List Kernel}, k ∈ replaceFirst l pid f → k ∈ l ∨ k = f := by
  intro l
  induction l with
  | nil => intro h; simp [replaceFirst] at h
  | cons k0 rest ih =>
    intro h
    rw [replaceFirst] at h
    by_cases h0 : k0.id = pid
    · rw [if_pos h0] at h
      rcases List.mem_cons.mp h with h | h
      · exact Or.inr h
      · exact Or.inl (List.mem_cons_of_mem k0 h)
    · rw [if_neg h0] at h
      rcases List.mem_cons.mp h with h | h
      · exact Or.inl (h ▸ List.mem_cons_self k0 rest)
      · rcases ih h with h | h
        · exact Or.inl (List.mem_cons_of_mem k0 h)
        · exact Or.inr h

lemma replaceFirst_getElem_ne {pid : Nat} {f : Kernel} :
    ∀ (l : List Kernel) (j : Nat) (k : Kernel),
      l[j]? = some k → k.id ≠ pid → (replaceFirst l pid f)[j]? = some k := by
  intro l
  induction l with
  | nil => intro j k h _; simp at h
  | cons k0 rest ih =>
    intro j k h hk
    rw [replaceFirst]
    by_cases h0 : k0.id = pid
    · rw [if_pos h0]
      cases j with
      | zero =>
        simp only [List.getElem?_cons_zero, Option.some.injEq] at h
        exact absurd (h ▸ h0) hk
      | succ j =>
        simpa using h
    · rw [if_neg h0]
      cases j with
      | zero => simpa using h
      | succ j =>
        simp only [List.getElem?_cons_succ] at h ⊢
        exact ih j k h hk

/-- A bundled description of how the fusion-phase state evolves along an
attempt trace: no top-level node appears or disappears, nested fused producers
and erase marks only accumulate, consistency is preserved, every dependence
graph is built from the then-current live-kernel list, and the final
live-kernel list is the initial one with the successful replacements folded
in. -/
def Evolves (st st' : FState) (tr : List Attempt) : Prop :=
  st'.nodes = st.nodes ∧
  st.nested ⊆ st'.nested ∧
  st.marked ⊆ st'.marked ∧
  (StInv st → StInv st') ∧
  stepsOk st.tracking tr ∧
  st'.tracking = tr.foldl applySucc st.tracking

lemma evolves_rfl (st : FState) : Evolves st st [] := by
  refine ⟨rfl, Finset.Subset.refl _, Finset.Subset.refl _, id, trivial, rfl⟩

lemma stepsOk_append :
    ∀ (tr : List Attempt) (l : List Kernel) (tr' : List Attempt),
      stepsOk l tr → stepsOk (tr.foldl applySucc l) tr' → stepsOk l (tr ++ tr') := by
  intro tr
  induction tr with
  | nil => intro l tr' _ h2; simpa using h2
  | cons a rest ih =>
    intro l tr' h1 h2
    simp only [List.cons_append, stepsOk]
    refine ⟨h1.1, ?_⟩
    exact ih (applySucc l a) tr' h1.2 (by simpa using h2)

lemma evolves_trans {st1 st2 st3 : FState} {tr tr' : List Attempt}
    (h1 : Evolves st1 st2 tr) (h2 : Evolves st2 st3 tr') :
    Evolves st1 st3 (tr ++ tr') := by
  obtain ⟨hn1, hs1, hm1, hi1, hk1, ht1⟩ := h1
  obtain ⟨hn2, hs2, hm2, hi2, hk2, ht2⟩ := h2
  refine ⟨hn2.trans hn1, hs1.trans hs2, hm1.trans hm2, fun h => hi2 (hi1 h), ?_, ?_⟩
  · exact stepsOk_append tr st1.tracking tr' hk1 (ht1 ▸ hk2)
  · rw [List.foldl_append, ← ht1]
    exact ht2

lemma presentOps_subset_of (st st' : FState) (hn : st'.nodes = st.nodes)
    (hs : st.nested ⊆ st'.nested) : presentOps st ⊆ presentOps st' := by
  unfold presentOps
  rw [hn]
  exact Finset.union_subset_union (Finset.Subset.refl _) hs

lemma fuseAttempt_evolves (fuse : List Kernel → Kernel → Nat → Option Kernel)
    (c : Kernel) (pos i : Nat) (st : FState)
    (hfu : ∀ p, fuse st.tracking c i = some p → p ∈ st.tracking) :
    Evolves st (fuseAttempt fuse c pos i st).1 [(fuseAttempt fuse c pos i st).2] := by
  cases hf : fuse st.tracking c i with
  | none =>
    simp only [fuseAttempt, hf]
    exact ⟨rfl, Finset.Subset.refl _, Finset.Subset.refl _, id,
      ⟨rfl, trivial⟩, by simp [applySucc]⟩
  | some p =>
    have hp : p ∈ st.tracking := hfu p hf
    simp only [fuseAttempt, hf]
    refine ⟨rfl, Finset.subset_insert _ _, Finset.subset_insert _ _, ?_,
      ⟨rfl, trivial⟩, by simp [applySucc]⟩
    intro hinv
    have hpres : presentOps st ⊆
        presentOps { tracking := replaceFirst st.tracking p.id (mkFused p st.nextId),
                     nodes := st.nodes, nested := insert st.nextId st.nested,
                     marked := insert p.id st.marked, nextId := st.nextId + 1 } := by
      exact presentOps_subset_of _ _ rfl (Finset.subset_insert _ _)
    constructor
    · intro k hk
      rcases mem_replaceFirst hk with h | h
      · exact hpres (hinv.1 k h)
      · rw [h]
        simp [presentOps, mkFused]
    · intro x hx
      rcases Finset.mem_insert.mp hx with h | h
      · rw [h]
        exact hpres (hinv.1 p hp)
      · exact hpres (hinv.2 x h)

lemma runInputs_evolves (fuse : List Kernel → Kernel → Nat → Option Kernel)
    (hfu : ∀ l c i p, fuse l c i = some p → p ∈ l) (c : Kernel) (pos : Nat) :
    ∀ (is : List Nat) (st : FState),
      Evolves st (runInputs fuse c pos is st).1 (runInputs fuse c pos is st).2 := by
  intro is
  induction is with
  | nil => intro st; exact evolves_rfl st
  | cons i rest ih =>
    intro st
    have h1 := fuseAttempt_evolves fuse c pos i st (fun p hp => hfu _ _ _ _ hp)
    have h2 := ih (fuseAttempt fuse c pos i st).1
    simpa [runInputs] using evolves_trans h1 h2

lemma visitPos_evolves (fuse : List Kernel → Kernel → Nat → Option Kernel)
    (hfu : ∀ l c i p, fuse l c i = some p → p ∈ l) (pos : Nat) (st : FState) :
    Evolves st (visitPos fuse pos st).1 ((visitPos fuse pos st).2.attempts) := by
  unfold visitPos
  cases h : st.tracking[pos]? with
  | none => exact evolves_rfl st
  | some c => exact runInputs_evolves fuse hfu c pos (List.range c.inputs.length) st

lemma runVisits_evolves (fuse : List Kernel → Kernel → Nat → Option Kernel)
    (hfu : ∀ l c i p, fuse l c i = some p → p ∈ l) :
    ∀ (ps : List Nat) (st : FState),
      Evolves st (runVisits fuse ps st).1 (attemptsOf (runVisits fuse ps st).2) := by
  intro ps
  induction ps with
  | nil => intro st; simpa [runVisits, attemptsOf] using evolves_rfl st
  | cons pos rest ih =>
    intro st
    have h1 := visitPos_evolves fuse hfu pos st
    have h2 := ih (visitPos fuse pos st).1
    have h3 := evolves_trans h1 h2
    simpa [runVisits, attemptsOf] using h3

lemma fusionLoop_evolves (fuse : List Kernel → Kernel → Nat → Option Kernel)
    (hfu : ∀ l c i p, fuse l c i = some p → p ∈ l) (st : FState) :
    Evolves st (fusionLoop fuse st).1 (attemptsOf (fusionLoop fuse st).2) :=
  runVisits_evolves fuse hfu _ st

lemma runVisits_map_pos (fuse : List Kernel → Kernel → Nat → Option Kernel) :
    ∀ (ps : List Nat) (st : FState),
      (runVisits fuse ps st).2.map Visit.pos = ps := by
  intro ps
  induction ps with
  | nil => intro st; simp [runVisits]
  | cons pos rest ih =>
    intro st
    simp only [runVisits, List.map_cons, ih]
    congr 1
    unfold visitPos
    cases st.tracking[pos]? <;> rfl

lemma stepsOk_getElem :
    ∀ (tr : List Attempt) (l : List Kernel), stepsOk l tr →
      ∀ (t : Nat) (a : Attempt), tr[t]? = some a →
        a.graphList = (tr.take t).foldl applySucc l := by
  intro tr
  induction tr with
  | nil => intro l _ t a h; simp at h
  | cons a0 rest ih =>
    intro l hok t a h
    cases t with
    | zero =>
      simp only [List.getElem?_cons_zero, Option.some.injEq] at h
      rw [← h]
      exact hok.1
    | succ t =>
      simp only [List.getElem?_cons_succ] at h
      have := ih (applySucc l a0) hok.2 t a h
      simpa [List.foldl] using this

lemma rangeRev_getElem :
    ∀ (n j : Nat), j < n → ((List.range n).reverse)[n - 1 - j]? = some j := by
  intro n
  induction n with
  | zero => intro j h; omega
  | succ n ih =>
    intro j hj
    rw [List.range_succ, List.reverse_append]
    simp only [List.reverse_singleton, List.singleton_append]
    by_cases h : j = n
    · have h0 : n + 1 - 1 - j = 0 := by omega
      rw [h0]
      simp [h]
    · have hjn : j < n := by omega
      have : n + 1 - 1 - j = (n - 1 - j) + 1 := by omega
      rw [this]
      simp only [List.getElem?_cons_succ]
      exact ih j hjn

lemma liveCount_le_of (st st' : FState) (hn : st'.nodes = st.nodes)
    (hm : st.marked ⊆ st'.marked) : liveCount st' ≤ liveCount st := by
  unfold liveCount
  rw [hn]
  exact Finset.card_le_card (Finset.sdiff_subset_sdiff (Finset.Subset.refl _) hm)

/-- C5 (amended). After every successful fusion attempt, the fused producer
replaces the **original producer's** record in the live-kernel list, the
original producer is recorded for discarding, and the consumer's record (like
every record whose identity differs from the producer's) is unchanged. -/
theorem claim_C5_amended (fuse : List Kernel → Kernel → Nat → Option Kernel)
    (c : Kernel) (pos i : Nat) (st : FState) (p : Kernel)
    (h : fuse st.tracking c i = some p) :
    (fuseAttempt fuse c pos i st).1.tracking =
      replaceFirst st.tracking p.id (mkFused p st.nextId) ∧
    p.id ∈ (fuseAttempt fuse c pos i st).1.marked ∧
    (∀ (j : Nat) (k : Kernel), st.tracking[j]? = some k → k.id ≠ p.id →
      (fuseAttempt fuse c pos i st).1.tracking[j]? = some k) := by
  simp only [fuseAttempt, h]
  refine ⟨by trivial, Finset.mem_insert_self _ _, ?_⟩
  intro j k hj hk
  exact replaceFirst_getElem_ne st.tracking j k hj hk

/-- C6. The reverse pass visits the collected live-kernel list positions in
reverse encounter order: the visit trace is exactly the reversed position
range, so for any two collected positions the later-defined one is visited
strictly before the earlier-defined one. -/
theorem claim_C6 (fuse : List Kernel → Kernel → Nat → Option Kernel)
    (st : FState) :
    ((fusionLoop fuse st).2.map Visit.pos =
      (List.range st.tracking.length).reverse) ∧
    (∀ i j, i < j → j < st.tracking.length →
      ∃ si sj : Nat, sj < si ∧
        ((fusionLoop fuse st).2.map Visit.pos)[sj]? = some j ∧
        ((fusionLoop fuse st).2.map Visit.pos)[si]? = some i) := by
  have hmap : (fusionLoop fuse st).2.map Visit.pos =
      (List.range st.tracking.length).reverse :=
    runVisits_map_pos fuse _ st
  refine ⟨hmap, ?_⟩
  intro i j hij hj
  refine ⟨st.tracking.length - 1 - i, st.tracking.length - 1 - j, by omega, ?_, ?_⟩
  · rw [hmap]
    exact rangeRev_getElem _ j hj
  · rw [hmap]
    exact rangeRev_getElem _ i (by omega)

/-- C7. Every fusion attempt builds its dependence graph fresh: the kernel
list it is constructed from is the initial collected list with exactly the
replacements of all earlier successful attempts folded in, so every graph
query reflects all replacements made by earlier successful fusions and no
graph instance is reused across attempts. -/
theorem claim_C7 (fuse : List Kernel → Kernel → Nat → Option Kernel)
    (st : FState) (hfu : ∀ l c i p, fuse l c i = some p → p ∈ l)
    (t : Nat) (a : Attempt)
    (h : (attemptsOf (fusionLoop fuse st).2)[t]? = some a) :
    a.graphList =
      ((attemptsOf (fusionLoop fuse st).2).take t).foldl applySucc st.tracking := by
  have hev := fusionLoop_evolves fuse hfu st
  exact stepsOk_getElem _ _ hev.2.2.2.2.1 t a h

/-- C8. No kernel marked for removal is erased while the reverse pass runs:
the pass leaves the function's top-level nodes untouched and only adds nested
fused producers, every marked kernel is still present when the pass completes,
and the erasure is the single terminal batch step that removes exactly the
marked set. -/
theorem claim_C8 (fuse : List Kernel → Kernel → Nat → Option Kernel)
    (st : FState) (hfu : ∀ l c i p, fuse l c i = some p → p ∈ l)
    (hinv : StInv st) :
    ((fusionLoop fuse st).1.nodes = st.nodes ∧
     st.nested ⊆ (fusionLoop fuse st).1.nested) ∧
    (∀ x ∈ (fusionLoop fuse st).1.marked, x ∈ presentOps (fusionLoop fuse st).1) ∧
    ((fusionPhase fuse st).1 = batchErase (fusionLoop fuse st).1 ∧
     (fusionPhase fuse st).1.nodes =
       (fusionLoop fuse st).1.nodes \ (fusionLoop fuse st).1.marked ∧
     (fusionPhase fuse st).1.nested =
       (fusionLoop fuse st).1.nested \ (fusionLoop fuse st).1.marked) := by
  have hev := fusionLoop_evolves fuse hfu st
  refine ⟨⟨hev.1, hev.2.1⟩, ?_, rfl, rfl, rfl⟩
  exact (hev.2.2.2.1 hinv).2

/-- C9. Fusion never increases the live-kernel count: each fusion attempt
leaves it unchanged or smaller, each successful fusion of a live top-level
producer decreases it by exactly one (the producer is marked for removal while
the fused producer lives inside the consumer's loop nest), and across the
whole fusion phase (batch erasure included) the count is non-increasing. -/
theorem claim_C9 (fuse : List Kernel → Kernel → Nat → Option Kernel)
    (st0 : FState) (hfu : ∀ l c i p, fuse l c i = some p → p ∈ l) :
    (∀ c pos i st, liveCount (fuseAttempt fuse c pos i st).1 ≤ liveCount st) ∧
    (∀ c pos i st p, fuse st.tracking c i = some p →
      p.id ∈ st.nodes → p.id ∉ st.marked →
      liveCount (fuseAttempt fuse c pos i st).1 + 1 = liveCount st) ∧
    liveCount (fusionPhase fuse st0).1 ≤ liveCount st0 := by
  refine ⟨?_, ?_, ?_⟩
  · intro c pos i st
    cases hf : fuse st.tracking c i with
    | none => simp [fuseAttempt, hf]
    | some p =>
      refine liveCount_le_of st _ ?_ ?_
      · simp [fuseAttempt, hf]
      · simp only [fuseAttempt, hf]
        exact Finset.subset_insert _ _
  · intro c pos i st p hf hn hm
    simp only [fuseAttempt, hf, liveCount]
    exact sdiff_insert_card_succ hn hm
  · have hev := fusionLoop_evolves fuse hfu st0
    have h1 : liveCount (fusionLoop fuse st0).1 ≤ liveCount st0 :=
      liveCount_le_of st0 _ hev.1 hev.2.2.1
    have h2 : liveCount (fusionPhase fuse st0).1 =
        liveCount (fusionLoop fuse st0).1 := by
      simp only [fusionPhase, batchErase, liveCount, sdiff_idem]
    omega

/-! ### Pass driver -/

/-- Pass options: `use-parallel-loops` and `tile-sizes`. -/
structure PassConfig where
  useParallelLoops : Bool
  tileSizes : List Nat
deriving DecidableEq

/-- The observable outcome of running the pass on a function: the (possibly
mutated) function, whether `signalPassFailure` was called, and the emitted
diagnostics. -/
structure PassResult where
  func : Func
  failed : Bool
  diagnostics : List String
deriving DecidableEq

/-- The kernels collected by `func.walk([&](LinalgOp op) ...)` after root tiling: the untiled generic
kernels plus, for each tiled loop nest, the tiled kernel instance inside it
(which reuses the record of the kernel it was tiled from; the pre-tiling op
itself was already erased, so identities stay unambiguous). -/
def collectKernels (ops : List Op) : List Kernel :=
  ops.filterMap fun op =>
    match op with
    | .generic k => some k
    | .tiledNest k _ => some k
    | _ => none

/-- The identities of a kernel list. -/
def kernelIds (ks : List Kernel) : Finset Nat :=
  ks.foldr (fun k s => insert k.id s) ∅

/-- An upper bound on the identities in use, for fresh-id allocation. -/
def maxKernelId (ks : List Kernel) : Nat :=
  ks.foldr (fun k m => max k.id m) 0

/-- The fusion-phase state at the start of the reverse pass: the collected
kernels are the live-kernel list and the top-level nodes; nothing is nested or
marked yet; fresh identities start above every existing one. -/
def initFState (ks : List Kernel) : FState :=
  { tracking := ks, nodes := kernelIds ks, nested := ∅, marked := ∅,
    nextId := maxKernelId ks + 1 }

/-- The terminal erasure applied to the block: drop every kernel op marked for
removal. -/
def eraseMarked (marked : Finset Nat) (ops : List Op) : List Op :=
  ops.filter fun op =>
    match op with
    | .generic k => decide (k.id ∉ marked)
    | .tiledNest k _ => decide (k.id ∉ marked)
    | _ => true

/-- Model of `LhloFuseLinalgPass::runOnFunction`: reject functions that are not a
single block (diagnostic + `signalPassFailure`, no mutation); otherwise seed
the escaping-buffer set from arguments and return operands, close it under
view aliasing, tile the root kernels, and run the producer-fusion phase with
terminal batch erasure.  The canonicalization rewrites applied between phases
are external and shape-preserving for everything modelled here. -/
def runOnFunction (tilePrim : Kernel → List Nat → LoopKind → Bool)
    (fuse : List Kernel → Kernel → Nat → Option Kernel)
    (cfg : PassConfig) (f : Func) : PassResult :=
  if f.blocks.length = 1 then
    let esc := resolveAliases (allOps f) (seedList f)
    let tileOk := tileGenericOp tilePrim cfg.useParallelLoops
    let newBlocks := f.blocks.map fun blk =>
      let tiledOps := (tilingPhase tileOk cfg.tileSizes esc blk.ops).1
      let ks := collectKernels tiledOps
      let stF := (fusionPhase fuse (initFState ks)).1
      { blk with ops := eraseMarked stF.marked tiledOps }
    { func := { f with blocks := newBlocks }, failed := false, diagnostics := [] }
  else
    { func := f, failed := true,
      diagnostics := ["The function needs to have a single block."] }

/-- C1. For every function whose body is not a single block, the pass emits
the diagnostic, signals failure, and returns before performing any mutation:
the resulting function is exactly the input function. -/
theorem claim_C1 (tilePrim : Kernel → List Nat → LoopKind → Bool)
    (fuse : List Kernel → Kernel → Nat → Option Kernel)
    (cfg : PassConfig) (f : Func) (h : f.blocks.length ≠ 1) :
    runOnFunction tilePrim fuse cfg f =
      { func := f, failed := true,
        diagnostics := ["The function needs to have a single block."] } := by
  rw [runOnFunction, if_neg h]

/-- C10. If the single block's terminator is not a return operation, the pass
does not fail, and the escaping-buffer seed set consists of exactly the
function's argument buffers (no return operands are added). -/
theorem claim_C10 (tilePrim : Kernel → List Nat → LoopKind → Bool)
    (fuse : List Kernel → Kernel → Nat → Option Kernel)
    (cfg : PassConfig) (b : BlockT) (f : Func)
    (hb : f.blocks = [b]) (ht : b.term = Terminator.other) :
    (runOnFunction tilePrim fuse cfg f).failed = false ∧
    seedBuffers f = f.args.foldr insert ∅ := by
  have hlen : f.blocks.length = 1 := by rw [hb]; rfl
  constructor
  · rw [runOnFunction, if_pos hlen]
  · have hsl : seedList f = f.args := by
      rw [seedList, hb]
      simp [returnOperands, ht]
    rw [seedBuffers, hsl]

/-! ### Concrete instances -/

/-- A producer kernel: writes buffer 10. -/
def kA : Kernel :=
  { id := 1, inputs := [], outputs := [10], numLoops := 1 }

/-- A consumer kernel: reads buffer 10, writes buffer 11, rank 2. -/
def kB : Kernel :=
  { id := 2, inputs := [10], outputs := [11], numLoops := 2 }

/-- A kernel writing only the non-escaping buffer 12. -/
def kC : Kernel :=
  { id := 4, inputs := [], outputs := [12], numLoops := 1 }

/-- A fusion primitive that never finds a fusable producer. -/
def fuseNever : List Kernel → Kernel → Nat → Option Kernel :=
  fun _ _ _ => none

/-- A fusion primitive that fuses the kernel with identity 1 into the consumer
with identity 2 at input index 0. -/
def fuseFirst : List Kernel → Kernel → Nat → Option Kernel :=
  fun l c i =>
    if c.id = 2 ∧ i = 0 then l.find? (fun k => k.id = 1) else none

lemma fuseFirst_mem : ∀ (l : List Kernel) (c : Kernel) (i : Nat) (p : Kernel),
    fuseFirst l c i = some p → p ∈ l := by
  intro l c i p h
  unfold fuseFirst at h
  by_cases hc : c.id = 2 ∧ i = 0
  · rw [if_pos hc] at h
    exact List.mem_of_find?_eq_some h
  · rw [if_neg hc] at h
    exact absurd h (by simp)

lemma fuseNever_mem : ∀ (l : List Kernel) (c : Kernel) (i : Nat) (p : Kernel),
    fuseNever l c i = some p → p ∈ l := by
  intro l c i p h
  exact absurd h (by simp [fuseNever])

/-- A two-block function (violates the single-block precondition). -/
def funcTwoBlocks : Func :=
  { args := [7],
    blocks := [{ ops := [], term := Terminator.ret [7] },
               { ops := [], term := Terminator.other }] }

/-- A single-block function whose terminator is not a return. -/
def funcOther : Func :=
  { args := [7, 8],
    blocks := [{ ops := [Op.generic kA], term := Terminator.other }] }

/-- The one attempt recorded by `fusionLoop fuseFirst (initFState [kA, kB])`. -/
def attW : Attempt :=
  { pos := 1, consumer := kB, inputIdx := 0, graphList := [kA, kB],
    success := some (kA, mkFused kA 3) }

theorem claim_C1_witness :
    funcTwoBlocks.blocks.length ≠ 1 ∧
    runOnFunction (fun _ _ _ => true) fuseNever ⟨false, []⟩ funcTwoBlocks =
      { func := funcTwoBlocks, failed := true,
        diagnostics := ["The function needs to have a single block."] } :=
  ⟨by decide,
   claim_C1 (fun _ _ _ => true) fuseNever ⟨false, []⟩ funcTwoBlocks (by decide)⟩

theorem claim_C2_witness :
    (tileOp (fun _ _ => true) [] ({10} : Finset Nat) (Op.generic kA)).1 =
      Op.tiledNest kA (tileSizesFor [] kA) ∧
    (tileOp (fun _ _ => true) [] ({10} : Finset Nat) (Op.generic kC)).1 =
      Op.generic kC ∧
    (tileOp (fun _ _ => true) [] ({10} : Finset Nat) (Op.generic kC)).2 = [] :=
  ⟨((claim_C2 (fun _ _ => true) [] {10} kA).2.1).mpr
      ⟨⟨10, by decide, by decide⟩, rfl⟩,
   ((claim_C2 (fun _ _ => true) [] {10} kC).2.2 (by decide)).1,
   ((claim_C2 (fun _ _ => true) [] {10} kC).2.2 (by decide)).2⟩

theorem claim_C3_witness :
    (5 ∈ resolveAliases [Op.view 5 3] [5]) ∧
    viewSource [Op.view 5 3] 5 = some 3 ∧
    3 ∈ resolveAliases [Op.view 5 3] [5] ∧
    resolveAliases [Op.view 5 3] [3, 5] = resolveAliases [Op.view 5 3] [5] :=
  ⟨by decide, by decide,
   (claim_C3 [Op.view 5 3] [5] [3, 5] (by decide)).1 5 (by decide) 3 (by decide),
   (claim_C3 [Op.view 5 3] [5] [3, 5] (by decide)).2⟩

theorem claim_C4_witness :
    ((kB, [4, 4]) ∈
      (tilingPhase (fun _ _ => true) [4, 4] ({11} : Finset Nat) [Op.generic kB]).2) ∧
    ([4, 4] : List Nat) = tileSizesFor [4, 4] kB :=
  ⟨by decide,
   (claim_C4 (fun _ _ => true) [4, 4] {11} [Op.generic kB] kB [4, 4] (by decide)).1⟩

/-- The claim as frozen is false on the code: in this concrete run a fusion
succeeds (the producer `kA` is marked for discarding), yet the consumer's
record at position 1 of the live-kernel list is untouched — the fused producer
replaced the producer's record at position 0 instead. -/
theorem claim_C5_counterexample :
    ((fusionLoop fuseFirst (initFState [kA, kB])).1.marked = {kA.id}) ∧
    ((fusionLoop fuseFirst (initFState [kA, kB])).1.tracking[1]? = some kB) ∧
    ((fusionLoop fuseFirst (initFState [kA, kB])).1.tracking[1]? ≠
      some (mkFused kA (initFState [kA, kB]).nextId)) ∧
    ((fusionLoop fuseFirst (initFState [kA, kB])).1.tracking[0]? =
      some (mkFused kA (initFState [kA, kB]).nextId)) := by
  refine ⟨by decide, by decide, by decide, by decide⟩

theorem claim_C5_witness :
    (fuseAttempt fuseFirst kB 1 0 (initFState [kA, kB])).1.tracking =
      replaceFirst (initFState [kA, kB]).tracking kA.id
        (mkFused kA (initFState [kA, kB]).nextId) ∧
    kA.id ∈ (fuseAttempt fuseFirst kB 1 0 (initFState [kA, kB])).1.marked ∧
    (fuseAttempt fuseFirst kB 1 0 (initFState [kA, kB])).1.tracking[1]? = some kB := by
  have h := claim_C5_amended fuseFirst kB 1 0 (initFState [kA, kB]) kA (by decide)
  exact ⟨h.1, h.2.1, h.2.2 1 kB (by decide) (by decide)⟩

theorem claim_C6_witness :
    ∃ si sj : Nat, sj < si ∧
      ((fusionLoop fuseNever (initFState [kA, kB])).2.map Visit.pos)[sj]? = some 1 ∧
      ((fusionLoop fuseNever (initFState [kA, kB])).2.map Visit.pos)[si]? = some 0 :=
  (claim_C6 fuseNever (initFState [kA, kB])).2 0 1 (by decide) (by decide)

theorem claim_C7_witness :
    (attemptsOf (fusionLoop fuseFirst (initFState [kA, kB])).2)[0]? = some attW ∧
    attW.graphList =
      ((attemptsOf (fusionLoop fuseFirst (initFState [kA, kB])).2).take 0).foldl
        applySucc (initFState [kA, kB]).tracking :=
  ⟨by decide,
   claim_C7 fuseFirst (initFState [kA, kB]) fuseFirst_mem 0 attW (by decide)⟩

theorem claim_C8_witness :
    (fusionLoop fuseFirst (initFState [kA, kB])).1.nodes =
      (initFState [kA, kB]).nodes ∧
    (∀ x ∈ (fusionLoop fuseFirst (initFState [kA, kB])).1.marked,
      x ∈ presentOps (fusionLoop fuseFirst (initFState [kA, kB])).1) ∧
    (fusionPhase fuseFirst (initFState [kA, kB])).1.nodes =
      (fusionLoop fuseFirst (initFState [kA, kB])).1.nodes \
        (fusionLoop fuseFirst (initFState [kA, kB])).1.marked := by
  have h := claim_C8 fuseFirst (initFState [kA, kB]) fuseFirst_mem
    ⟨by decide, by decide⟩
  exact ⟨h.1.1, h.2.1, h.2.2.2.1⟩

theorem claim_C9_witness :
    liveCount (fuseAttempt fuseFirst kB 1 0 (initFState [kA, kB])).1 + 1 =
      liveCount (initFState [kA, kB]) ∧
    liveCount (fusionPhase fuseFirst (initFState [kA, kB])).1 ≤
      liveCount (initFState [kA, kB]) := by
  have h := claim_C9 fuseFirst (initFState [kA, kB]) fuseFirst_mem
  exact ⟨h.2.1 kB 1 0 (initFState [kA, kB]) kA (by decide) (by decide) (by decide),
         h.2.2⟩

theorem claim_C10_witness :
    (runOnFunction (fun _ _ _ => true) fuseNever ⟨false, []⟩ funcOther).failed = false ∧
    seedBuffers funcOther = funcOther.args.foldr insert ∅ :=
  claim_C10 (fun _ _ _ => true) fuseNever ⟨false, []⟩
    { ops := [Op.generic kA], term := Terminator.other } funcOther rfl rfl

end LhloFuseLinalg
